import Mathlib

/-!
Shallow embedding of the `xchat-crypto` utility layer (files
`src/src/index.ts` and the unnamed TypeScript module `src/unnamed/part_000`).

Byte arrays (`Uint8Array`, `Buffer`) are modelled as `List Nat` with the
typed-array invariant "every entry is `< 256`" carried as a hypothesis where
a theorem needs it.  JavaScript strings are `String` / `List Char`.  A
JavaScript function that can throw is modelled as `Option` / `Except`, with
`none` / `.error` standing for the thrown exception.
-/

set_option maxRecDepth 10000

/-- The curve type union `"X25519" | "X448"` used throughout the source. -/
inductive CurveType
  | X25519
  | X448
deriving DecidableEq

/-- `keyLength` from `src/src/index.ts`: 32 for X25519, 57 for X448. -/
def keyLength (curve : CurveType) : Nat :=
  if curve = CurveType.X25519 then 32 else 57

/-- The characters a JavaScript regular expression `.` does NOT match
(LineTerminator: LF, CR, LS, PS). -/
def isLineTerminator (c : Char) : Bool :=
  c.toNat = 10 ∨ c.toNat = 13 ∨ c.toNat = 8232 ∨ c.toNat = 8233

/-- The characters `parseInt` skips as leading whitespace
(ECMAScript WhiteSpace plus LineTerminator). -/
def isJsWhitespace (c : Char) : Bool :=
  c.toNat ∈ [9, 10, 11, 12, 13, 32, 160, 5760, 8192, 8193, 8194, 8195, 8196,
    8197, 8198, 8199, 8200, 8201, 8202, 8232, 8233, 8239, 8287, 12288, 65279]

/-- Value of a single hexadecimal digit character (`0-9`, `a-f`, `A-F`),
`none` for every other character. -/
def hexVal (c : Char) : Option Nat :=
  let n := c.toNat
  if 48 ≤ n ∧ n ≤ 57 then some (n - 48)
  else if 97 ≤ n ∧ n ≤ 102 then some (n - 87)
  else if 65 ≤ n ∧ n ≤ 70 then some (n - 55)
  else none

/-- A lowercase hexadecimal digit character: `0-9` or `a-f`. -/
def isLowerHexDigit (c : Char) : Bool :=
  (48 ≤ c.toNat ∧ c.toNat ≤ 57) ∨ (97 ≤ c.toNat ∧ c.toNat ≤ 102)

/-- JavaScript `n.toString(16)` for a non-negative integer `n`: the
lowercase hexadecimal digit characters of `n`, most significant first. -/
def natHex (n : Nat) : List Char :=
  if _h : n < 16 then [Nat.digitChar n]
  else natHex (n / 16) ++ [Nat.digitChar (n % 16)]
decreasing_by exact Nat.div_lt_self (by omega) (by omega)

/-- JavaScript `byte.toString(16).padStart(2, "0")` from `XUtils.encodeHex`. -/
def hexByte (byte : Nat) : List Char :=
  let s := natHex byte
  List.replicate (2 - s.length) '0' ++ s

/-- Character list of `XUtils.encodeHex`: the source reduces over the bytes,
appending each byte's two-character hex representation to the string. -/
def encodeHexChars (bytes : List Nat) : List Char :=
  bytes.foldl (fun str byte => str ++ hexByte byte) []

/-- `XUtils.encodeHex` from `src/unnamed/part_000`. -/
def encodeHex (bytes : List Nat) : String :=
  ⟨encodeHexChars bytes⟩

/-- The chunking performed by `hexString.match(/.{1,2}/g)`: at each position
the regex greedily takes two characters that are not line terminators, or a
single one if the next character is a line terminator or the end; positions
holding line terminators are skipped.  The empty result list models the
`null` return of `match`. -/
def chunks : List Char → List (List Char)
  | [] => []
  | c :: rest =>
    if isLineTerminator c then chunks rest
    else
      match rest with
      | [] => [[c]]
      | d :: rest2 =>
        if isLineTerminator d then [c] :: chunks (d :: rest2)
        else [c, d] :: chunks rest2

/-- ECMAScript `parseInt(chunk, 16)`: skip leading whitespace, read an
optional sign, strip an optional `0x`/`0X` prefix, then take the longest
prefix of hexadecimal digits.  `none` models the `NaN` result when no digit
is found. -/
def jsParseIntHex (chunk : List Char) : Option Int :=
  let t := chunk.dropWhile isJsWhitespace
  let sign : Int := if t.head? = some '-' then -1 else 1
  let t2 := if t.head? = some '+' ∨ t.head? = some '-' then t.tail else t
  let t3 := if t2.take 2 = ['0', 'x'] ∨ t2.take 2 = ['0', 'X'] then t2.drop 2 else t2
  let digits := t3.takeWhile fun c => (hexVal c).isSome
  if digits.isEmpty then none
  else some (sign * digits.foldl (fun a c => a * 16 + ((hexVal c).getD 0 : Int)) 0)

/-- The `ToUint8` coercion applied when a number is stored into a
`Uint8Array`: `NaN` becomes `0`, an integer is reduced modulo 256 into
`[0, 255]`. -/
def toUint8 : Option Int → Nat
  | none => 0
  | some v => (v % 256).toNat

/-- `XUtils.decodeHex` from `src/unnamed/part_000`: the empty string maps to
the empty array; otherwise the string is chunked by `/.{1,2}/g` and each
chunk goes through `parseInt(chunk, 16)` into a `Uint8Array`.  `none` models
the `TypeError` thrown by the non-null assertion when `match` returns
`null` (input made entirely of line terminators). -/
def decodeHex (hexString : String) : Option (List Nat) :=
  if hexString.length = 0 then some []
  else
    match chunks hexString.data with
    | [] => none
    | cs => some (cs.map fun chunk => toUint8 (jsParseIntHex chunk))

/-- Big-endian value of a byte list, with accumulator. -/
def beNatAcc (a : Nat) (bytes : List Nat) : Nat :=
  bytes.foldl (fun acc b => acc * 256 + b) a

/-- Big-endian unsigned integer formed from a byte list (the value
`BigInt("0x" + encodeHex(bytes))` computes on a `Uint8Array`). -/
def beNat (bytes : List Nat) : Nat :=
  beNatAcc 0 bytes

/-- Base-16 fold of hex digit characters, with accumulator. -/
def hexFold (a : Nat) (cs : List Char) : Nat :=
  cs.foldl (fun v c => v * 16 + (hexVal c).getD 0) a

/-- `BigInt("0x" + s)` on the character list of `s`: a SyntaxError (`none`)
if `s` is empty or holds a non-hex-digit character, otherwise the base-16
value of the digits. -/
def bigIntHex (cs : List Char) : Option Nat :=
  if cs.isEmpty ∨ ¬ (cs.all fun c => (hexVal c).isSome) then none
  else some (hexFold 0 cs)

/-- `isEven` from `src/src/index.ts` (the `bigint` argument is non-negative
on every call site, so it is modelled on `Nat`). -/
def isEven (value : Nat) : Bool :=
  value % 2 = 0

/-- The `XConstants` interface of `src/src/index.ts`. -/
structure XConstants where
  CURVE : CurveType
  HASH : String
  KEY_LENGTH : Nat
  INFO : String
  MIN_OTK_SUPPLY : Nat

/-- The `xConstants` object of `src/src/index.ts` (the copy in
`src/unnamed/part_000` additionally carries `HEADER_SIZE: 32`, modelled
below as `HEADER_SIZE`, and uses the info string `"xchat"`). -/
def xConstants : XConstants :=
  { CURVE := CurveType.X25519
    HASH := "SHA-512"
    KEY_LENGTH := 32
    INFO := "xhat"
    MIN_OTK_SUPPLY := 100 }

/-- `xConstants.HEADER_SIZE` from `src/unnamed/part_000`. -/
def HEADER_SIZE : Nat := 32

/-- `TypedArray.prototype.set(source, offset)`: overwrite `target` with
`source` starting at `offset` (every call in this code base stays in
bounds). -/
def typedArraySet (target source : List Nat) (offset : Nat) : List Nat :=
  target.take offset ++ source ++ target.drop (offset + source.length)

/-- `xMakeSalt` from `src/src/index.ts`: a zero-initialized buffer of
`keyLength(curve)` bytes, then a loop running `saltLength` times executing
`salt.set([0xff])` — the offset argument is omitted, so every iteration
writes position 0. -/
def xMakeSalt (curve : CurveType) : List Nat :=
  let saltLength := keyLength curve
  (List.range saltLength).foldl
    (fun salt _ => typedArraySet salt [0xff] 0)
    (List.replicate saltLength 0)

/-- The option object handed to the external `futoin-hkdf` call. -/
structure HkdfOptions where
  salt : List Nat
  info : String
  hash : String

/-- `xKDF` from `src/src/index.ts`.  The HKDF primitive itself is an
external library, so it is a parameter; the theorem about this function
exposes exactly which arguments the source passes to it. -/
def xKDF (hkdf : List Nat → Nat → HkdfOptions → List Nat) (IKM : List Nat) : List Nat :=
  hkdf IKM xConstants.KEY_LENGTH
    { salt := xMakeSalt xConstants.CURVE
      info := xConstants.INFO
      hash := xConstants.HASH }

/-- `xConcat` from `src/src/index.ts`: sum the lengths, return the empty
array when called with no arguments, otherwise copy each array into a fresh
zero-initialized result at the running offset. -/
def xConcat (arrays : List (List Nat)) : List Nat :=
  let totalLength := arrays.foldl (fun acc value => acc + value.length) 0
  if arrays.length = 0 then []
  else
    (arrays.foldl
      (fun (st : List Nat × Nat) array =>
        (typedArraySet st.1 array st.2, st.2 + array.length))
      (List.replicate totalLength 0, 0)).1

/-- `xEncode` from `src/src/index.ts`: reject keys whose length is not 32
with the invalid-key-length `Error`, push the curve tag (0 for X25519, 1
for X448), push the parity byte of `BigInt("0x" + encodeHex(publicKey))`,
then push the raw key bytes.  The `none` branch of `bigIntHex` corresponds
to the `SyntaxError` `BigInt` would throw on a malformed literal; it is
unreachable for `Uint8Array` inputs. -/
def xEncode (curveType : CurveType) (publicKey : List Nat) : Except String (List Nat) :=
  if publicKey.length ≠ 32 then
    .error ("Invalid key length, received key of length " ++
      toString publicKey.length ++ " and expected length 32.")
  else
    let tag : Nat := match curveType with
      | CurveType.X25519 => 0
      | CurveType.X448 => 1
    match bigIntHex (encodeHexChars publicKey) with
    | none => .error "SyntaxError: Cannot convert string to a BigInt"
    | some key => .ok (tag :: (if isEven key then 0 else 1) :: publicKey)

/-- `XUtils.bytesEqual` from `src/unnamed/part_000`: `false` on differing
byte lengths, otherwise an index loop comparing the two (signed `Int8Array`
views reinterpret each byte the same way on both sides, so comparing the
raw bytes is equivalent). -/
def bytesEqual (buf1 buf2 : List Nat) : Bool :=
  if buf1.length ≠ buf2.length then false
  else (buf1.zip buf2).all fun p => p.1 = p.2

/-- `XUtils.emptyHeader` from `src/unnamed/part_000`: 32 zero bytes. -/
def emptyHeader : List Nat :=
  List.replicate HEADER_SIZE 0

/-- `XUtils.packMessage` from `src/unnamed/part_000`: serialize the body
with the external msgpack codec (the `encode` parameter), use the provided
header or the empty header when the argument is omitted, and concatenate
header then body. -/
def packMessage {α : Type} (encode : α → List Nat) (msg : α)
    (header : Option (List Nat)) : List Nat :=
  let msgb := encode msg
  let msgh := header.getD emptyHeader
  xConcat [msgh, msgb]

/-- Error taxonomy for the message framer (§7 of the design spec). -/
inductive FramerError
  | TruncatedMessage
  | CodecError
deriving DecidableEq

/-- `XUtils.unpackMessage` from `src/unnamed/part_000`: slice the first 32
bytes as the header and decode the rest with the external msgpack codec
(the `decode` parameter).  The source performs no length validation of its
own; its only failure is the exception thrown by the external codec, which
the spec's taxonomy calls `CodecError`. -/
def unpackMessage {α : Type} (decode : List Nat → Option α)
    (msg : List Nat) : Except FramerError (List Nat × α) :=
  let msgh := msg.take HEADER_SIZE
  match decode (msg.drop HEADER_SIZE) with
  | some msgb => .ok (msgh, msgb)
  | none => .error FramerError.CodecError

/-- A concrete instance of the external msgpack codec, restricted to
natural-number bodies below 128: msgpack-lite encodes such a value as the
single positive-fixint byte holding it, and its decoder fails on the empty
byte sequence, like the real codec. -/
def msgpackFixintDecode : List Nat → Option Nat
  | [b] => if b < 128 then some b else none
  | _ => none

/-- Encoder half of the concrete fixint codec instance. -/
def msgpackFixintEncode (n : Nat) : List Nat :=
  [n % 128]

/-- JavaScript `n.toString(16)` on an integral `Number`: sign character
followed by the hex digits of the absolute value. -/
def jsIntToHexString (n : Int) : List Char :=
  if n < 0 then '-' :: natHex n.natAbs else natHex n.toNat

/-- The `while (str.length < 12) str = "0" + str;` padding loop of
`XUtils.numberToUint8Arr`. -/
def padStart12 (str : List Char) : List Char :=
  List.replicate (12 - str.length) '0' ++ str

/-- `XUtils.numberToUint8Arr` from `src/unnamed/part_000`: hex-format the
number, left-pad the string with `'0'` to 12 characters, and feed it to
`XUtils.decodeHex`. -/
def numberToUint8Arr (n : Int) : Option (List Nat) :=
  decodeHex ⟨padStart12 (jsIntToHexString n)⟩

/-- `XUtils.uint8ArrToNumber` from `src/unnamed/part_000`:
`Buffer.readUIntBE(0, arr.length)`, which throws a `RangeError` (`none`)
unless `1 ≤ arr.length ≤ 6`, and otherwise reads the bytes as a big-endian
unsigned integer. -/
def uint8ArrToNumber (arr : List Nat) : Option Nat :=
  if 1 ≤ arr.length ∧ arr.length ≤ 6 then some (beNat arr) else none

/-! ### Character-level facts -/

theorem hexVal_bounds {c : Char} {v : Nat} (h : hexVal c = some v) :
    v < 16 ∧ 48 ≤ c.toNat ∧ c.toNat ≤ 102 := by
  simp only [hexVal] at h
  split at h
  · simp only [Option.some.injEq] at h; omega
  · split at h
    · simp only [Option.some.injEq] at h; omega
    · split at h
      · simp only [Option.some.injEq] at h; omega
      · exact absurd h (by simp)

theorem hex_not_ws {c : Char} {v : Nat} (h : hexVal c = some v) :
    isJsWhitespace c = false := by
  have hb := hexVal_bounds h
  simp only [isJsWhitespace, List.mem_cons, List.not_mem_nil, or_false,
    decide_eq_false_iff_not]
  omega

theorem hex_not_term {c : Char} {v : Nat} (h : hexVal c = some v) :
    isLineTerminator c = false := by
  have hb := hexVal_bounds h
  simp only [isLineTerminator, decide_eq_false_iff_not, not_or]
  omega

theorem hex_toNat_ne {c : Char} {v : Nat} (h : hexVal c = some v) (m : Nat)
    (hm : m < 48 ∨ 102 < m) : c.toNat ≠ m := by
  have hb := hexVal_bounds h
  omega

theorem char_ne_of_toNat_ne {c d : Char} (h : c.toNat ≠ d.toNat) : c ≠ d := by
  intro he; exact h (by rw [he])

theorem digitChar_hexVal : ∀ d, d < 16 → hexVal (Nat.digitChar d) = some d := by
  decide

theorem digitChar_lt_16_cases : ∀ d, d < 16 →
    isLowerHexDigit (Nat.digitChar d) = true := by
  decide

/-! ### Facts about `natHex` (JavaScript `toString(16)`) -/

theorem natHex_ne_nil (n : Nat) : natHex n ≠ [] := by
  unfold natHex
  split <;> simp

theorem natHex_all_hex (n : Nat) : ∀ c ∈ natHex n, (hexVal c).isSome := by
  induction n using natHex.induct with
  | case1 n h =>
    rw [natHex, dif_pos h]
    intro c hc
    rw [List.mem_singleton] at hc
    subst hc
    rw [digitChar_hexVal n h]
    rfl
  | case2 n h ih =>
    rw [natHex, dif_neg h]
    intro c hc
    rcases List.mem_append.mp hc with h1 | h1
    · exact ih c h1
    · rw [List.mem_singleton] at h1
      subst h1
      rw [digitChar_hexVal (n % 16) (Nat.mod_lt _ (by omega))]
      rfl

theorem hexFold_append (a : Nat) (xs ys : List Char) :
    hexFold a (xs ++ ys) = hexFold (hexFold a xs) ys :=
  List.foldl_append ..

theorem natHex_fold (n : Nat) : ∀ a : Nat,
    hexFold a (natHex n) = a * 16 ^ (natHex n).length + n := by
  induction n using natHex.induct with
  | case1 n h =>
    intro a
    rw [natHex, dif_pos h]
    simp [hexFold, digitChar_hexVal n h]
  | case2 n h ih =>
    intro a
    rw [natHex, dif_neg h, hexFold_append, ih a]
    simp only [hexFold, List.foldl_cons, List.foldl_nil,
      digitChar_hexVal (n % 16) (Nat.mod_lt _ (by omega)), Option.getD_some,
      List.length_append, List.length_singleton]
    rw [Nat.pow_succ]
    have hdm : 16 * (n / 16) + n % 16 = n := Nat.div_add_mod n 16
    ring_nf
    omega

theorem natHex_len_le : ∀ k n : Nat, 1 ≤ k → n < 16 ^ k → (natHex n).length ≤ k := by
  intro k
  induction k with
  | zero => omega
  | succ k ih =>
    intro n _ hn
    by_cases h16 : n < 16
    · rw [natHex, dif_pos h16]
      simp only [List.length_singleton]
      omega
    · rw [natHex, dif_neg h16]
      have hk : 1 ≤ k := by
        by_contra hk
        have : k = 0 := by omega
        subst this
        have h1 : (16 : Nat) ^ (0 + 1) = 16 := by norm_num
        omega
      have hdiv : n / 16 < 16 ^ k := by
        rw [Nat.div_lt_iff_lt_mul (by omega)]
        calc n < 16 ^ (k + 1) := hn
        _ = 16 ^ k * 16 := by rw [Nat.pow_succ]
      have := ih (n / 16) hk hdiv
      simp only [List.length_append, List.length_singleton]
      omega

theorem natHex_len_ge : ∀ k n : Nat, 16 ^ k ≤ n → k + 1 ≤ (natHex n).length := by
  intro k
  induction k with
  | zero =>
    intro n _
    have := natHex_ne_nil n
    have : 0 < (natHex n).length := List.length_pos.mpr this
    omega
  | succ k ih =>
    intro n hn
    have h16 : ¬ n < 16 := by
      have : (16 : Nat) ≤ 16 ^ (k + 1) := by
        calc (16 : Nat) = 16 ^ 1 := (pow_one 16).symm
        _ ≤ 16 ^ (k + 1) := Nat.pow_le_pow_right (by omega) (by omega)
      omega
    rw [natHex, dif_neg h16]
    have hdiv : 16 ^ k ≤ n / 16 := by
      rw [Nat.le_div_iff_mul_le (by omega)]
      calc 16 ^ k * 16 = 16 ^ (k + 1) := (Nat.pow_succ 16 k).symm
      _ ≤ n := hn
    have := ih (n / 16) hdiv
    simp only [List.length_append, List.length_singleton]
    omega

/-! ### Facts about `hexByte` (one byte of `encodeHex` output) -/

theorem hexByte_eq (b : Nat) (hb : b < 256) :
    hexByte b = [Nat.digitChar (b / 16), Nat.digitChar (b % 16)] := by
  by_cases h16 : b < 16
  · have : b / 16 = 0 := Nat.div_eq_of_lt h16
    have hm : b % 16 = b := Nat.mod_eq_of_lt h16
    rw [hexByte, natHex, dif_pos h16]
    simp [this, hm, Nat.digitChar]
  · have hdiv : b / 16 < 16 := by
      rw [Nat.div_lt_iff_lt_mul (by omega)]
      omega
    rw [hexByte, natHex, dif_neg h16, natHex, dif_pos hdiv]
    simp

theorem hexByte_hexVal (b : Nat) (hb : b < 256) :
    (hexByte b).map hexVal = [some (b / 16), some (b % 16)] := by
  rw [hexByte_eq b hb]
  simp [digitChar_hexVal (b / 16) (by omega), digitChar_hexVal (b % 16) (Nat.mod_lt _ (by omega))]

/-! ### Chunking: `/.{1,2}/g` on strings without line terminators -/

/-- Reference pair-splitting of a character list: pairs left to right, a
lone final character kept as a one-element chunk. -/
def pairUp : List Char → List (List Char)
  | [] => []
  | [a] => [[a]]
  | a :: b :: rest => [a, b] :: pairUp rest

theorem chunks_eq_pairUp : ∀ cs : List Char,
    (∀ c ∈ cs, isLineTerminator c = false) → chunks cs = pairUp cs := by
  intro cs
  induction cs using pairUp.induct with
  | case1 => intro _; rfl
  | case2 a =>
    intro h
    have ha := h a (by simp)
    simp [chunks, pairUp, ha]
  | case3 a b rest ih =>
    intro h
    have ha := h a (by simp)
    have hb := h b (by simp)
    have hrest : ∀ c ∈ rest, isLineTerminator c = false := by
      intro c hc; exact h c (by simp [hc])
    simp [chunks, pairUp, ha, hb, ih hrest]

theorem pairUp_length : ∀ cs : List Char, (pairUp cs).length = (cs.length + 1) / 2 := by
  intro cs
  induction cs using pairUp.induct with
  | case1 => rfl
  | case2 a => simp [pairUp]
  | case3 a b rest ih =>
    simp only [pairUp, List.length_cons, ih]
    omega

theorem pairUp_append_pair (a b : Char) (rest : List Char) :
    pairUp (a :: b :: rest) = [a, b] :: pairUp rest := rfl

/-! ### `parseInt(chunk, 16)` on chunks of hexadecimal digits -/

theorem takeWhile_all {p : Char → Bool} {cs : List Char}
    (h : ∀ c ∈ cs, p c = true) : cs.takeWhile p = cs := by
  induction cs with
  | nil => rfl
  | cons c rest ih =>
    rw [List.takeWhile_cons, if_pos (h c (by simp))]
    rw [ih fun c hc => h c (by simp [hc])]

theorem intFold_eq_hexFold (cs : List Char) (hhex : ∀ c ∈ cs, (hexVal c).isSome) :
    ∀ a : Nat,
      cs.foldl (fun v c => v * 16 + ((hexVal c).getD 0 : Int)) (a : Int) =
        ((hexFold a cs : Nat) : Int) := by
  induction cs with
  | nil => intro a; rfl
  | cons c rest ih =>
    intro a
    obtain ⟨vc, hvc⟩ := Option.isSome_iff_exists.mp (hhex c (by simp))
    have hrest : ∀ c ∈ rest, (hexVal c).isSome := fun c hc => hhex c (by simp [hc])
    simp only [List.foldl_cons, hexFold, hvc, Option.getD_some]
    have hcast : ((a : Int) * 16 + (vc : Int)) = ((a * 16 + vc : Nat) : Int) := by
      push_cast; ring
    rw [hcast, ih hrest (a * 16 + vc)]
    simp [hexFold]

theorem jsParseIntHex_all_hex {cs : List Char} (hne : cs ≠ [])
    (hhex : ∀ c ∈ cs, (hexVal c).isSome)
    (hx : cs.take 2 ≠ ['0', 'x'] ∧ cs.take 2 ≠ ['0', 'X']) :
    jsParseIntHex cs = some ((hexFold 0 cs : Nat) : Int) := by
  obtain ⟨c, rest, rfl⟩ := List.exists_cons_of_ne_nil hne
  obtain ⟨vc, hvc⟩ := Option.isSome_iff_exists.mp (hhex c (by simp))
  have hwc := hex_not_ws hvc
  have hcm : c ≠ '-' := char_ne_of_toNat_ne (hex_toNat_ne hvc 45 (by omega))
  have hcp : c ≠ '+' := char_ne_of_toNat_ne (hex_toNat_ne hvc 43 (by omega))
  have hdrop : (c :: rest).dropWhile isJsWhitespace = c :: rest := by
    rw [List.dropWhile_cons, if_neg (by simp [hwc])]
  have htake : (c :: rest).takeWhile (fun x => (hexVal x).isSome) = c :: rest :=
    takeWhile_all hhex
  have h2 := intFold_eq_hexFold (c :: rest) hhex 0
  simp only [Nat.cast_zero] at h2
  simp only [jsParseIntHex, hdrop, List.head?_cons, Option.some.injEq, hcm, hcp,
    or_self, if_false, hx.1, hx.2, htake, List.isEmpty_cons, Bool.false_eq_true,
    h2, one_mul]

theorem jsParseIntHex_pair {a b : Char} {va vb : Nat}
    (ha : hexVal a = some va) (hb : hexVal b = some vb) :
    jsParseIntHex [a, b] = some ((16 * va + vb : Nat) : Int) := by
  have hbx : b ≠ 'x' := char_ne_of_toNat_ne (hex_toNat_ne hb 120 (by omega))
  have hbX : b ≠ 'X' := by
    intro hc
    rw [hc] at hb
    have : hexVal 'X' = none := by decide
    rw [this] at hb
    exact Option.noConfusion hb
  have h := @jsParseIntHex_all_hex [a, b] (by simp)
    (by
      intro c hc
      rcases List.mem_cons.mp hc with h1 | h1
      · subst h1; simp [ha]
      · rw [List.mem_singleton] at h1; subst h1; simp [hb])
    (by constructor <;> simp [List.take, hbx, hbX])
  rw [h]
  simp only [hexFold, List.foldl_cons, List.foldl_nil, ha, hb, Option.getD_some]
  norm_num [Nat.mul_comm]

theorem jsParseIntHex_single {a : Char} {va : Nat} (ha : hexVal a = some va) :
    jsParseIntHex [a] = some (va : Int) := by
  have h := @jsParseIntHex_all_hex [a] (by simp)
    (by intro c hc; rw [List.mem_singleton] at hc; subst hc; simp [ha])
    (by constructor <;> simp [List.take])
  rw [h]
  simp [hexFold, ha]

theorem toUint8_of_lt {v : Nat} (h : v < 256) : toUint8 (some (v : Int)) = v := by
  simp only [toUint8]
  rw [Int.emod_eq_of_lt (by omega) (by omega)]
  simp

/-- Decoding one two-hex-digit chunk back to its byte value. -/
theorem decode_hexByte (b : Nat) (hb : b < 256) :
    toUint8 (jsParseIntHex (hexByte b)) = b := by
  rw [hexByte_eq b hb]
  rw [jsParseIntHex_pair (digitChar_hexVal (b / 16) (by omega))
    (digitChar_hexVal (b % 16) (Nat.mod_lt _ (by omega)))]
  have : 16 * (b / 16) + b % 16 = b := Nat.div_add_mod b 16
  rw [this]
  exact toUint8_of_lt hb

/-! ### Structure of `encodeHex` output -/

theorem encodeHexChars_eq_flatten (bytes : List Nat) :
    encodeHexChars bytes = (bytes.map hexByte).flatten := by
  suffices h : ∀ acc : List Char,
      bytes.foldl (fun str byte => str ++ hexByte byte) acc =
        acc ++ (bytes.map hexByte).flatten by
    simpa using h []
  induction bytes with
  | nil => intro acc; simp
  | cons b rest ih =>
    intro acc
    simp only [List.foldl_cons, List.map_cons, List.flatten_cons, ih]
    simp

theorem encodeHexChars_all_hex (bytes : List Nat) (hb : ∀ b ∈ bytes, b < 256) :
    ∀ c ∈ encodeHexChars bytes, (hexVal c).isSome := by
  rw [encodeHexChars_eq_flatten]
  intro c hc
  obtain ⟨block, hblock, hcb⟩ := List.mem_flatten.mp hc
  obtain ⟨b, hbmem, rfl⟩ := List.mem_map.mp hblock
  rw [hexByte_eq b (hb b hbmem)] at hcb
  rcases List.mem_cons.mp hcb with h1 | h1
  · subst h1
    rw [digitChar_hexVal (b / 16) (by have := hb b hbmem; omega)]
    rfl
  · rw [List.mem_singleton] at h1
    subst h1
    rw [digitChar_hexVal (b % 16) (Nat.mod_lt _ (by omega))]
    rfl

theorem encodeHexChars_length (bytes : List Nat) (hb : ∀ b ∈ bytes, b < 256) :
    (encodeHexChars bytes).length = 2 * bytes.length := by
  rw [encodeHexChars_eq_flatten]
  induction bytes with
  | nil => rfl
  | cons b rest ih =>
    simp only [List.map_cons, List.flatten_cons, List.length_append,
      hexByte_eq b (hb b (by simp))]
    rw [ih fun x hx => hb x (by simp [hx])]
    simp only [List.length_cons, List.length_nil]
    omega

theorem hexFold_hexByte (a b : Nat) (hb : b < 256) (rest : List Char) :
    hexFold a (hexByte b ++ rest) = hexFold (a * 256 + b) rest := by
  rw [hexByte_eq b hb, hexFold_append]
  simp only [hexFold, List.foldl_cons, List.foldl_nil,
    digitChar_hexVal (b / 16) (by omega),
    digitChar_hexVal (b % 16) (Nat.mod_lt _ (by omega)), Option.getD_some]
  have h : (a * 16 + b / 16) * 16 + b % 16 = a * 256 + b := by
    have := Nat.div_add_mod b 16
    omega
  rw [h]

theorem hexFold_flatten_hexBytes (bytes : List Nat) (hb : ∀ b ∈ bytes, b < 256) :
    ∀ a : Nat, hexFold a ((bytes.map hexByte).flatten) = beNatAcc a bytes := by
  induction bytes with
  | nil => intro a; rfl
  | cons b rest ih =>
    intro a
    simp only [List.map_cons, List.flatten_cons]
    rw [hexFold_hexByte a b (hb b (by simp)),
      ih (fun x hx => hb x (by simp [hx])) (a * 256 + b)]
    rfl

/-- `BigInt("0x" + encodeHex(publicKey))` equals the big-endian integer
value of the key bytes. -/
theorem bigIntHex_encodeHexChars (bytes : List Nat) (hne : bytes ≠ [])
    (hb : ∀ b ∈ bytes, b < 256) :
    bigIntHex (encodeHexChars bytes) = some (beNat bytes) := by
  have hhex := encodeHexChars_all_hex bytes hb
  have hlen := encodeHexChars_length bytes hb
  have hnonempty : (encodeHexChars bytes).isEmpty = false := by
    rw [List.isEmpty_eq_false_iff_exists_mem]
    have : 0 < (encodeHexChars bytes).length := by
      rw [hlen]
      have : 0 < bytes.length := List.length_pos.mpr hne
      omega
    exact List.exists_mem_of_length_pos this
  rw [bigIntHex, if_neg (by
    push_neg
    refine ⟨by simp [hnonempty], ?_⟩
    rw [List.all_eq_true]
    intro c hc
    exact hhex c hc)]
  rw [encodeHexChars_eq_flatten, hexFold_flatten_hexBytes bytes hb 0]
  rfl

/-! ### Decoding chunked hex digit strings -/

theorem chunk_not_term_of_hex {cs : List Char}
    (hhex : ∀ c ∈ cs, (hexVal c).isSome) :
    ∀ c ∈ cs, isLineTerminator c = false := by
  intro c hc
  obtain ⟨v, hv⟩ := Option.isSome_iff_exists.mp (hhex c hc)
  exact hex_not_term hv

theorem pairUp_flatten_hexBytes (bytes : List Nat) (hb : ∀ b ∈ bytes, b < 256) :
    pairUp ((bytes.map hexByte).flatten) = bytes.map hexByte := by
  induction bytes with
  | nil => rfl
  | cons b rest ih =>
    simp only [List.map_cons, List.flatten_cons, hexByte_eq b (hb b (by simp))]
    rw [List.cons_append, List.cons_append, List.nil_append, pairUp_append_pair,
      ih fun x hx => hb x (by simp [hx])]

theorem decode_pairUp_beNat {cs : List Char}
    (hhex : ∀ c ∈ cs, (hexVal c).isSome) (heven : 2 ∣ cs.length) :
    ∀ a : Nat,
      beNatAcc a ((pairUp cs).map fun ch => toUint8 (jsParseIntHex ch)) =
        hexFold a cs := by
  induction cs using pairUp.induct with
  | case1 => intro a; rfl
  | case2 x =>
    exfalso
    simp only [List.length_singleton] at heven
    omega
  | case3 x y r ih =>
    intro a
    obtain ⟨vx, hvx⟩ := Option.isSome_iff_exists.mp (hhex x (by simp))
    obtain ⟨vy, hvy⟩ := Option.isSome_iff_exists.mp (hhex y (by simp))
    have hbx := hexVal_bounds hvx
    have hby := hexVal_bounds hvy
    have hr : ∀ c ∈ r, (hexVal c).isSome := fun c hc => hhex c (by simp [hc])
    have hevenr : 2 ∣ r.length := by
      simp only [List.length_cons] at heven
      omega
    rw [pairUp_append_pair]
    simp only [List.map_cons]
    rw [jsParseIntHex_pair hvx hvy, toUint8_of_lt (by omega)]
    have hstep : beNatAcc a ((16 * vx + vy) :: ((pairUp r).map
        fun ch => toUint8 (jsParseIntHex ch))) =
        beNatAcc (a * 256 + (16 * vx + vy)) ((pairUp r).map
        fun ch => toUint8 (jsParseIntHex ch)) := rfl
    rw [hstep, ih hr hevenr]
    simp only [hexFold, List.foldl_cons, hvx, hvy, Option.getD_some]
    have : (a * 16 + vx) * 16 + vy = a * 256 + (16 * vx + vy) := by ring
    rw [this]

theorem decode_pairUp_lt {cs : List Char}
    (hhex : ∀ c ∈ cs, (hexVal c).isSome) :
    ∀ b ∈ (pairUp cs).map fun ch => toUint8 (jsParseIntHex ch), b < 256 := by
  induction cs using pairUp.induct with
  | case1 => intro b hb; simp [pairUp] at hb
  | case2 x =>
    intro b hb
    obtain ⟨vx, hvx⟩ := Option.isSome_iff_exists.mp (hhex x (by simp))
    have hbx := hexVal_bounds hvx
    simp only [pairUp, List.map_cons, List.map_nil, List.mem_singleton] at hb
    subst hb
    rw [jsParseIntHex_single hvx, toUint8_of_lt (by omega)]
    omega
  | case3 x y r ih =>
    intro b hb
    obtain ⟨vx, hvx⟩ := Option.isSome_iff_exists.mp (hhex x (by simp))
    obtain ⟨vy, hvy⟩ := Option.isSome_iff_exists.mp (hhex y (by simp))
    have hbx := hexVal_bounds hvx
    have hby := hexVal_bounds hvy
    have hr : ∀ c ∈ r, (hexVal c).isSome := fun c hc => hhex c (by simp [hc])
    rw [pairUp_append_pair] at hb
    simp only [List.map_cons, List.mem_cons] at hb
    rcases hb with h1 | h1
    · subst h1
      rw [jsParseIntHex_pair hvx hvy, toUint8_of_lt (by omega)]
      omega
    · exact ih hr b (by simpa using h1)

/-! ### `xConcat` computes list concatenation -/

theorem xConcat_fold (rest : List (List Nat)) : ∀ done : List Nat,
    (rest.foldl
      (fun (st : List Nat × Nat) array =>
        (typedArraySet st.1 array st.2, st.2 + array.length))
      (done ++ List.replicate ((rest.map List.length).sum) 0, done.length)).1 =
      done ++ rest.flatten := by
  induction rest with
  | nil => intro done; simp
  | cons a rest ih =>
    intro done
    simp only [List.foldl_cons, List.map_cons, List.sum_cons]
    have hset : typedArraySet
        (done ++ List.replicate (a.length + (rest.map List.length).sum) 0)
        a done.length =
        (done ++ a) ++ List.replicate ((rest.map List.length).sum) 0 := by
      unfold typedArraySet
      rw [List.take_left, List.drop_append a.length]
      have hdr : (List.replicate (a.length + (rest.map List.length).sum) 0).drop
          a.length = List.replicate ((rest.map List.length).sum) (0 : Nat) := by
        rw [List.drop_replicate]
        congr 1
        omega
      rw [hdr]
    rw [hset]
    have hlen : done.length + a.length = (done ++ a).length := by simp
    rw [hlen, ih (done ++ a)]
    simp

theorem foldl_add_length (arrays : List (List Nat)) : ∀ a : Nat,
    arrays.foldl (fun acc value => acc + value.length) a =
      a + (arrays.map List.length).sum := by
  induction arrays with
  | nil => intro a; simp
  | cons x rest ih =>
    intro a
    rw [List.foldl_cons, ih]
    simp only [List.map_cons, List.sum_cons]
    omega

theorem xConcat_eq_flatten (arrays : List (List Nat)) :
    xConcat arrays = arrays.flatten := by
  unfold xConcat
  by_cases h : arrays.length = 0
  · rw [if_pos h]
    rw [List.length_eq_zero] at h
    subst h
    rfl
  · rw [if_neg h]
    have hsum : arrays.foldl (fun acc value => acc + value.length) 0 =
        (arrays.map List.length).sum := by
      rw [foldl_add_length arrays 0]
      omega
    rw [hsum]
    have := xConcat_fold arrays []
    simpa using this

/-! ### Claim theorems -/

/-- C10: `xConcat` returns the concatenation of its argument arrays, left
to right with no gaps, its length is the sum of the input lengths, and with
no arguments it returns the empty array (inputs are immutable values in
this embedding, so they are trivially left unmodified). -/
theorem xConcat_spec :
    (∀ arrays : List (List Nat), xConcat arrays = arrays.flatten) ∧
    (∀ arrays : List (List Nat),
      (xConcat arrays).length = (arrays.map List.length).sum) ∧
    xConcat [] = [] := by
  refine ⟨xConcat_eq_flatten, ?_, rfl⟩
  intro arrays
  rw [xConcat_eq_flatten, List.length_flatten]

/-- C1: for every curve type the salt built by `xMakeSalt` has length
`keyLength(curve)`, byte 0 equal to `0xFF`, and every other byte equal to
`0x00`; and `xKDF` passes exactly this salt (for the configured curve
X25519), the output length 32, the info string and the hash name to the
external HKDF primitive. -/
theorem xMakeSalt_xKDF_salt_spec :
    (∀ c : CurveType, (xMakeSalt c).length = keyLength c) ∧
    xMakeSalt CurveType.X25519 = 0xFF :: List.replicate 31 0 ∧
    xMakeSalt CurveType.X448 = 0xFF :: List.replicate 56 0 ∧
    (∀ (hkdf : List Nat → Nat → HkdfOptions → List Nat) (IKM : List Nat),
      xKDF hkdf IKM =
        hkdf IKM 32
          { salt := xMakeSalt CurveType.X25519, info := "xhat", hash := "SHA-512" }) := by
  refine ⟨?_, by decide, by decide, fun hkdf IKM => rfl⟩
  intro c
  cases c <;> decide

/-- C3: `xEncode` rejects every input whose length is not exactly 32, for
both curve types, with the invalid-key-length error and no encoded
output. -/
theorem xEncode_invalid_length_spec (curveType : CurveType) (publicKey : List Nat)
    (hlen : publicKey.length ≠ 32) :
    xEncode curveType publicKey =
      .error ("Invalid key length, received key of length " ++
        toString publicKey.length ++ " and expected length 32.") := by
  unfold xEncode
  rw [if_pos hlen]

/-- Witness for C3 at the empty key and an X448-tagged three-byte key. -/
theorem xEncode_invalid_length_spec_witness :
    xEncode CurveType.X25519 [] =
      .error "Invalid key length, received key of length 0 and expected length 32." ∧
    xEncode CurveType.X448 [1, 2, 3] =
      .error "Invalid key length, received key of length 3 and expected length 32." :=
  ⟨xEncode_invalid_length_spec CurveType.X25519 [] (by decide),
   xEncode_invalid_length_spec CurveType.X448 [1, 2, 3] (by decide)⟩

/-- C8: `bytesEqual` returns `true` exactly when the two byte sequences are
equal (so any differing byte position yields `false`, and the empty pair
yields `true`), and whenever the lengths differ the result is `false`; the
function is total, so it never raises. -/
theorem bytesEqual_spec (a b : List Nat) :
    (bytesEqual a b = true ↔ a = b) ∧
    (a.length = b.length ∨ bytesEqual a b = false) := by
  constructor
  · unfold bytesEqual
    by_cases hlen : a.length = b.length
    · rw [if_neg (by omega)]
      constructor
      · intro hall
        rw [List.all_eq_true] at hall
        apply List.ext_get hlen
        intro i h1 h2
        have hmem : (a.get ⟨i, h1⟩, b.get ⟨i, h2⟩) ∈ a.zip b := by
          rw [List.mem_iff_get]
          refine ⟨⟨i, by rw [List.length_zip]; omega⟩, ?_⟩
          rw [List.get_zip]
        have := hall _ hmem
        simpa using this
      · intro heq
        subst heq
        clear hlen
        induction a with
        | nil => rfl
        | cons x rest ih =>
          rw [List.zip_cons_cons, List.all_cons, ih]
          simp
    · rw [if_pos hlen]
      simp only [Bool.false_eq_true, false_iff]
      intro heq
      exact hlen (by rw [heq])
  · by_cases hlen : a.length = b.length
    · exact Or.inl hlen
    · exact Or.inr (by unfold bytesEqual; rw [if_pos hlen])

/-! ### `decodeHex` on terminator-free strings -/

theorem pairUp_ne_nil {cs : List Char} (hne : cs ≠ []) : pairUp cs ≠ [] := by
  have h1 : 0 < cs.length := List.length_pos.mpr hne
  have h2 := pairUp_length cs
  intro hc
  rw [hc] at h2
  simp only [List.length_nil] at h2
  omega

theorem decodeHex_of_nonterm {cs : List Char} (hne : cs ≠ [])
    (hnt : ∀ c ∈ cs, isLineTerminator c = false) :
    decodeHex ⟨cs⟩ = some ((pairUp cs).map fun ch => toUint8 (jsParseIntHex ch)) := by
  have hlen : (String.mk cs).length = cs.length := rfl
  have hpos : 0 < cs.length := List.length_pos.mpr hne
  rw [decodeHex, if_neg (by rw [hlen]; omega)]
  have hch : chunks (String.mk cs).data = pairUp cs := chunks_eq_pairUp cs hnt
  rw [hch]
  obtain ⟨h, t, hpu⟩ := List.exists_cons_of_ne_nil (pairUp_ne_nil hne)
  rw [hpu]

theorem hexFold_zero_replicate : ∀ k : Nat, hexFold 0 (List.replicate k '0') = 0 := by
  intro k
  induction k with
  | zero => rfl
  | succ k ih =>
    rw [List.replicate_succ]
    have h0 : hexVal '0' = some 0 := by decide
    simp only [hexFold, List.foldl_cons, h0, Option.getD_some]
    exact ih

/-- C2: on every valid 32-byte key, `xEncode` returns 34 bytes: curve tag
(0 for X25519, 1 for X448), then a parity byte that is 0 when the
big-endian integer formed from the key is even and 1 when odd, then the
raw key bytes unchanged. -/
theorem xEncode_valid_key_spec (publicKey : List Nat)
    (h32 : publicKey.length = 32) (hb : ∀ b ∈ publicKey, b < 256) :
    xEncode CurveType.X25519 publicKey =
      .ok (0 :: (if beNat publicKey % 2 = 0 then 0 else 1) :: publicKey) ∧
    (0 :: (if beNat publicKey % 2 = 0 then 0 else 1) :: publicKey).length = 34 ∧
    xEncode CurveType.X448 publicKey =
      .ok (1 :: (if beNat publicKey % 2 = 0 then 0 else 1) :: publicKey) ∧
    (1 :: (if beNat publicKey % 2 = 0 then 0 else 1) :: publicKey).length = 34 := by
  have hne : publicKey ≠ [] := by
    intro hc
    rw [hc] at h32
    simp at h32
  have hbig := bigIntHex_encodeHexChars publicKey hne hb
  have hlen : (0 :: (if beNat publicKey % 2 = 0 then 0 else 1) :: publicKey).length
      = 34 := by
    simp [h32]
  have hlen2 : (1 :: (if beNat publicKey % 2 = 0 then 0 else 1) :: publicKey).length
      = 34 := by
    simp [h32]
  refine ⟨?_, hlen, ?_, hlen2⟩ <;>
  · unfold xEncode
    rw [if_neg (by omega), hbig]
    by_cases hpar : beNat publicKey % 2 = 0 <;>
      simp [isEven, hpar]

/-- Witness for C2 at a concrete key: 31 zero bytes followed by 7, an odd
big-endian value. -/
theorem xEncode_valid_key_spec_witness :
    (List.replicate 31 0 ++ [7] : List Nat).length = 32 ∧
    (∀ b ∈ (List.replicate 31 0 ++ [7] : List Nat), b < 256) ∧
    (xEncode CurveType.X25519 (List.replicate 31 0 ++ [7]) =
      .ok (0 :: (if beNat (List.replicate 31 0 ++ [7]) % 2 = 0 then 0 else 1) ::
        (List.replicate 31 0 ++ [7])) ∧
    (0 :: (if beNat (List.replicate 31 0 ++ [7]) % 2 = 0 then 0 else 1) ::
      (List.replicate 31 0 ++ [7])).length = 34 ∧
    xEncode CurveType.X448 (List.replicate 31 0 ++ [7]) =
      .ok (1 :: (if beNat (List.replicate 31 0 ++ [7]) % 2 = 0 then 0 else 1) ::
        (List.replicate 31 0 ++ [7])) ∧
    (1 :: (if beNat (List.replicate 31 0 ++ [7]) % 2 = 0 then 0 else 1) ::
      (List.replicate 31 0 ++ [7])).length = 34) :=
  ⟨by decide, by decide,
    xEncode_valid_key_spec (List.replicate 31 0 ++ [7]) (by decide) (by decide)⟩

/-- C4: `decodeHex` inverts `encodeHex` on every byte sequence (including
the empty one), and `encodeHex` emits exactly two lowercase hexadecimal
characters per byte, so its output length is twice the input length. -/
theorem decodeHex_encodeHex_roundtrip (bytes : List Nat)
    (hb : ∀ b ∈ bytes, b < 256) :
    decodeHex (encodeHex bytes) = some bytes ∧
    (encodeHex bytes).length = 2 * bytes.length ∧
    ∀ c ∈ (encodeHex bytes).data, isLowerHexDigit c = true := by
  have hhex := encodeHexChars_all_hex bytes hb
  have hlen : (encodeHex bytes).length = 2 * bytes.length :=
    encodeHexChars_length bytes hb
  refine ⟨?_, hlen, ?_⟩
  · rcases eq_or_ne bytes [] with rfl | hne
    · rfl
    · have hcne : encodeHexChars bytes ≠ [] := by
        intro hc
        have := encodeHexChars_length bytes hb
        rw [hc] at this
        simp only [List.length_nil] at this
        have : 0 < bytes.length := List.length_pos.mpr hne
        omega
      rw [encodeHex, decodeHex_of_nonterm hcne (chunk_not_term_of_hex hhex)]
      rw [encodeHexChars_eq_flatten, pairUp_flatten_hexBytes bytes hb,
        List.map_map]
      congr 1
      have hmapid : bytes.map (fun b => toUint8 (jsParseIntHex (hexByte b)))
          = bytes.map id := by
        apply List.map_congr_left
        intro b hbm
        rw [decode_hexByte b (hb b hbm)]
        rfl
      rw [Function.comp_def, hmapid, List.map_id]
  · intro c hc
    rw [encodeHex] at hc
    rw [encodeHexChars_eq_flatten] at hc
    obtain ⟨block, hblock, hcb⟩ := List.mem_flatten.mp hc
    obtain ⟨b, hbmem, rfl⟩ := List.mem_map.mp hblock
    rw [hexByte_eq b (hb b hbmem)] at hcb
    rcases List.mem_cons.mp hcb with h1 | h1
    · subst h1
      exact digitChar_lt_16_cases (b / 16) (by have := hb b hbmem; omega)
    · rw [List.mem_singleton] at h1
      subst h1
      exact digitChar_lt_16_cases (b % 16) (Nat.mod_lt _ (by omega))

/-- Witness for C4 at the spec's concrete scenario bytes `[0x00, 0xFF]`. -/
theorem decodeHex_encodeHex_roundtrip_witness :
    (∀ b ∈ ([0, 255] : List Nat), b < 256) ∧
    (decodeHex (encodeHex [0, 255]) = some [0, 255] ∧
    (encodeHex [0, 255]).length = 2 * ([0, 255] : List Nat).length ∧
    ∀ c ∈ (encodeHex [0, 255]).data, isLowerHexDigit c = true) :=
  ⟨by decide, decodeHex_encodeHex_roundtrip [0, 255] (by decide)⟩

/-- C5 evidence: `decodeHex` does not reject malformed input.  A non-hex
chunk goes through `parseInt` to `NaN`, which the `Uint8Array` coerces to
the byte 0, and an odd-length string keeps its lone final character as a
one-character chunk — no `MalformedInput` error is raised in either case,
while the empty string does map to the empty sequence. -/
theorem decodeHex_silently_accepts_malformed :
    decodeHex "zz" = some [0] ∧
    decodeHex "abc" = some [171, 12] ∧
    decodeHex "" = some [] := by
  refine ⟨?_, ?_, rfl⟩ <;> decide

/-- C6: for every 32-byte header and every body the external codec
round-trips, `unpackMessage` inverts `packMessage`, and an omitted header
is packed as (and unpacked to) the all-zero 32-byte header. -/
theorem packMessage_unpackMessage_roundtrip {α : Type} (enc : α → List Nat)
    (dec : List Nat → Option α) (body : α) (header : List Nat)
    (h32 : header.length = 32) (hrt : dec (enc body) = some body) :
    unpackMessage dec (packMessage enc body (some header)) =
      .ok (header, body) ∧
    unpackMessage dec (packMessage enc body none) =
      .ok (List.replicate 32 0, body) := by
  have hgen : ∀ h : List Nat, h.length = 32 →
      unpackMessage dec (xConcat [h, enc body]) = .ok (h, body) := by
    intro h hh
    have hflat : xConcat [h, enc body] = h ++ enc body := by
      rw [xConcat_eq_flatten]
      simp
    rw [unpackMessage, hflat]
    have htake : (h ++ enc body).take HEADER_SIZE = h := by
      rw [HEADER_SIZE, ← hh, List.take_left]
    have hdrop : (h ++ enc body).drop HEADER_SIZE = enc body := by
      have := @List.drop_append _ h (enc body) 0
      rw [HEADER_SIZE, ← hh]
      simpa using this
    rw [htake, hdrop, hrt]
  constructor
  · exact hgen header h32
  · have hempty : (packMessage enc body none) = xConcat [List.replicate 32 0, enc body] := rfl
    rw [hempty]
    exact hgen (List.replicate 32 0) (by simp)

/-- Witness for C6 with the concrete fixint codec, body 5 and an all-ones
header. -/
theorem packMessage_unpackMessage_roundtrip_witness :
    (List.replicate 32 1 : List Nat).length = 32 ∧
    msgpackFixintDecode (msgpackFixintEncode 5) = some 5 ∧
    (unpackMessage msgpackFixintDecode
        (packMessage msgpackFixintEncode 5 (some (List.replicate 32 1))) =
      .ok (List.replicate 32 1, 5) ∧
    unpackMessage msgpackFixintDecode (packMessage msgpackFixintEncode 5 none) =
      .ok (List.replicate 32 0, 5)) :=
  ⟨by decide, by decide,
    packMessage_unpackMessage_roundtrip msgpackFixintEncode msgpackFixintDecode
      5 (List.replicate 32 1) (by decide) (by decide)⟩

/-- C7 counterexample: a 5-byte input makes `unpackMessage` fail through
the external codec's rejection of the empty remainder — the spec taxonomy's
`CodecError` — not through a dedicated `TruncatedMessage` check, which does
not exist in the source. -/
theorem unpackMessage_short_input_not_truncated :
    unpackMessage msgpackFixintDecode (List.replicate 5 7) =
      .error FramerError.CodecError ∧
    unpackMessage msgpackFixintDecode (List.replicate 5 7) ≠
      .error FramerError.TruncatedMessage := by
  refine ⟨rfl, ?_⟩
  intro hc
  rw [show unpackMessage msgpackFixintDecode (List.replicate 5 7) =
    .error FramerError.CodecError from rfl] at hc
  exact FramerError.noConfusion (Except.error.inj hc)

/-- C7 amended: `unpackMessage` performs no length validation; on input
shorter than 32 bytes the codec receives the empty remainder, so whenever
the codec rejects the empty byte sequence (as msgpack does) the call fails
with the codec's error, never with `TruncatedMessage`. -/
theorem unpackMessage_short_input_codec_error {α : Type}
    (decode : List Nat → Option α) (msg : List Nat)
    (hlen : msg.length < 32) (hdec : decode [] = none) :
    unpackMessage decode msg = .error FramerError.CodecError := by
  rw [unpackMessage]
  have hdrop : msg.drop HEADER_SIZE = [] := by
    rw [HEADER_SIZE]
    exact List.drop_eq_nil_of_le (by omega)
  rw [hdrop, hdec]

/-- Witness for the amended C7 at a concrete 3-byte input and the fixint
codec. -/
theorem unpackMessage_short_input_codec_error_witness :
    ([1, 2, 3] : List Nat).length < 32 ∧
    msgpackFixintDecode [] = none ∧
    unpackMessage msgpackFixintDecode [1, 2, 3] =
      .error FramerError.CodecError :=
  ⟨by decide, rfl,
    unpackMessage_short_input_codec_error msgpackFixintDecode [1, 2, 3]
      (by decide) rfl⟩

/-! ### Number/byte conversion (claim C9) -/

theorem natHex_small (n : Nat) (h : n < 16) : natHex n = [Nat.digitChar n] := by
  rw [natHex, dif_pos h]

theorem numberToUint8Arr_nat_eq (n : Nat) :
    numberToUint8Arr (n : Int) = decodeHex ⟨padStart12 (natHex n)⟩ := by
  unfold numberToUint8Arr jsIntToHexString
  rw [if_neg (by omega), Int.toNat_natCast]

theorem pow16_eq_pow2 : (16 : Nat) ^ 12 = 2 ^ 48 := by norm_num

/-- Happy path of the number conversion: every `n < 2^48` is encoded as
exactly 6 big-endian bytes and read back unchanged. -/
theorem numberToUint8Arr_roundtrip_aux (n : Nat) (h : n < 2 ^ 48) :
    ∃ arr : List Nat, numberToUint8Arr (n : Int) = some arr ∧
      arr.length = 6 ∧ beNat arr = n ∧ uint8ArrToNumber arr = some n := by
  have h16 : n < 16 ^ 12 := by rw [pow16_eq_pow2]; omega
  have hnlen : (natHex n).length ≤ 12 := natHex_len_le 12 n (by omega) h16
  set cs := padStart12 (natHex n) with hcs
  have hcslen : cs.length = 12 := by
    rw [hcs, padStart12, List.length_append, List.length_replicate]
    omega
  have hhex : ∀ c ∈ cs, (hexVal c).isSome := by
    intro c hc
    rw [hcs, padStart12] at hc
    rcases List.mem_append.mp hc with h1 | h1
    · rw [List.eq_of_mem_replicate h1]; rfl
    · exact natHex_all_hex n c h1
  have hne : cs ≠ [] := by
    intro hc
    rw [hc] at hcslen
    simp at hcslen
  have hdec := decodeHex_of_nonterm hne (chunk_not_term_of_hex hhex)
  refine ⟨(pairUp cs).map fun ch => toUint8 (jsParseIntHex ch),
    by rw [numberToUint8Arr_nat_eq, hdec], ?_, ?_, ?_⟩
  · rw [List.length_map, pairUp_length, hcslen]
  · rw [beNat, decode_pairUp_beNat hhex (by rw [hcslen]; norm_num) 0]
    rw [hcs, padStart12, hexFold_append, hexFold_zero_replicate, natHex_fold n 0]
    omega
  · have hval : beNat ((pairUp cs).map fun ch => toUint8 (jsParseIntHex ch)) = n := by
      rw [beNat, decode_pairUp_beNat hhex (by rw [hcslen]; norm_num) 0]
      rw [hcs, padStart12, hexFold_append, hexFold_zero_replicate, natHex_fold n 0]
      omega
    have hiflen : 1 ≤ ((pairUp cs).map fun ch => toUint8 (jsParseIntHex ch)).length ∧
        ((pairUp cs).map fun ch => toUint8 (jsParseIntHex ch)).length ≤ 6 := by
      rw [List.length_map, pairUp_length, hcslen]
      norm_num
    rw [uint8ArrToNumber, if_pos hiflen, hval]

/-- Negative inputs with at most 11 hex digits are silently converted to 6
bytes: no error is raised. -/
theorem numberToUint8Arr_negative_aux (n : Int)
    (hlow : -(16 ^ 11 : Int) < n) (hneg : n < 0) :
    ∃ arr : List Nat, numberToUint8Arr n = some arr ∧ arr.length = 6 := by
  have habs : n.natAbs < 16 ^ 11 := by
    have hp : ((16 ^ 11 : Nat) : Int) = (16 ^ 11 : Int) := by norm_num
    omega
  have hnlen : (natHex n.natAbs).length ≤ 11 := natHex_len_le 11 _ (by omega) habs
  have hstr : jsIntToHexString n = '-' :: natHex n.natAbs := by
    unfold jsIntToHexString
    rw [if_pos hneg]
  set cs := padStart12 ('-' :: natHex n.natAbs) with hcs
  have hcslen : cs.length = 12 := by
    rw [hcs, padStart12, List.length_append, List.length_replicate,
      List.length_cons]
    omega
  have hnt : ∀ c ∈ cs, isLineTerminator c = false := by
    intro c hc
    rw [hcs, padStart12] at hc
    rcases List.mem_append.mp hc with h1 | h1
    · rw [List.eq_of_mem_replicate h1]; rfl
    · rcases List.mem_cons.mp h1 with h2 | h2
      · subst h2; rfl
      · obtain ⟨v, hv⟩ := Option.isSome_iff_exists.mp (natHex_all_hex _ c h2)
        exact hex_not_term hv
  have hne : cs ≠ [] := by
    intro hc
    rw [hc] at hcslen
    simp at hcslen
  have hdec := decodeHex_of_nonterm hne hnt
  refine ⟨(pairUp cs).map fun ch => toUint8 (jsParseIntHex ch), ?_, ?_⟩
  · rw [numberToUint8Arr, hstr, ← hcs, hdec]
  · rw [List.length_map, pairUp_length, hcslen]

/-- Inputs of 2^48 and above produce more than 6 bytes without error, and
only the read-back via `uint8ArrToNumber` then fails with `RangeError`. -/
theorem numberToUint8Arr_overflow_aux (n : Nat) (h48 : 2 ^ 48 ≤ n) :
    ∃ arr : List Nat, numberToUint8Arr (n : Int) = some arr ∧
      6 < arr.length ∧ uint8ArrToNumber arr = none := by
  have hge : 13 ≤ (natHex n).length := by
    have := natHex_len_ge 12 n (by rw [pow16_eq_pow2]; omega)
    omega
  have hpad : padStart12 (natHex n) = natHex n := by
    rw [padStart12, show 12 - (natHex n).length = 0 by omega]
    rfl
  have hhex := natHex_all_hex n
  have hne := natHex_ne_nil n
  have hdec := decodeHex_of_nonterm hne (chunk_not_term_of_hex hhex)
  have hlen : ((pairUp (natHex n)).map fun ch => toUint8 (jsParseIntHex ch)).length =
      ((natHex n).length + 1) / 2 := by
    rw [List.length_map, pairUp_length]
  refine ⟨(pairUp (natHex n)).map fun ch => toUint8 (jsParseIntHex ch),
    by rw [numberToUint8Arr_nat_eq, hpad, hdec], by omega, ?_⟩
  rw [uint8ArrToNumber, if_neg (by omega)]

/-- C9 counterexample: `numberToUint8Arr (-5)` does not fail — the padded
string `"0000000000-5"` is chunked into pairs, `parseInt("-5", 16)` yields
`-5`, and the `Uint8Array` coerces it to 251, so the call returns 6 bytes
instead of raising `RangeError`. -/
theorem numberToUint8Arr_negative_no_error :
    numberToUint8Arr (-5) = some [0, 0, 0, 0, 0, 251] ∧
    numberToUint8Arr (-5) ≠ none := by
  have h5 : natHex 5 = [Nat.digitChar 5] := natHex_small 5 (by norm_num)
  have habs : ((-5 : Int).natAbs) = 5 := rfl
  have heq : numberToUint8Arr (-5) = some [0, 0, 0, 0, 0, 251] := by
    unfold numberToUint8Arr jsIntToHexString
    rw [if_pos (by norm_num), habs, h5]
    decide
  exact ⟨heq, by rw [heq]; exact Option.noConfusion⟩

/-- C9 amended: for `0 ≤ n < 2^48` the conversion is the exact 6-byte
big-endian encoding and `uint8ArrToNumber` inverts it; but a negative `n`
(of at most 11 hex digits) does not fail — it yields 6 garbage bytes — and
an `n ≥ 2^48` yields more than 6 bytes without error, the `RangeError`
surfacing only when `uint8ArrToNumber` is applied to that result. -/
theorem numberConversion_amended :
    (∀ n : Nat, n < 2 ^ 48 →
      ∃ arr : List Nat, numberToUint8Arr (n : Int) = some arr ∧
        arr.length = 6 ∧ beNat arr = n ∧ uint8ArrToNumber arr = some n) ∧
    (∀ n : Int, -(16 ^ 11 : Int) < n → n < 0 →
      ∃ arr : List Nat, numberToUint8Arr n = some arr ∧ arr.length = 6) ∧
    (∀ n : Nat, 2 ^ 48 ≤ n →
      ∃ arr : List Nat, numberToUint8Arr (n : Int) = some arr ∧
        6 < arr.length ∧ uint8ArrToNumber arr = none) :=
  ⟨numberToUint8Arr_roundtrip_aux, numberToUint8Arr_negative_aux,
    numberToUint8Arr_overflow_aux⟩

/-- Witness for the amended C9 at `n = 5`, `n = -5` and `n = 2^48`. -/
theorem numberConversion_amended_witness :
    (∃ arr : List Nat, numberToUint8Arr ((5 : Nat) : Int) = some arr ∧
      arr.length = 6 ∧ beNat arr = 5 ∧ uint8ArrToNumber arr = some 5) ∧
    (∃ arr : List Nat, numberToUint8Arr (-5) = some arr ∧ arr.length = 6) ∧
    (∃ arr : List Nat, numberToUint8Arr ((2 ^ 48 : Nat) : Int) = some arr ∧
      6 < arr.length ∧ uint8ArrToNumber arr = none) :=
  ⟨numberConversion_amended.1 5 (by norm_num),
   numberConversion_amended.2.1 (-5) (by norm_num) (by norm_num),
   numberConversion_amended.2.2 (2 ^ 48) (le_refl _)⟩
